import Mathlib

/-!
Verification of the columnar table engine core (vertical concatenation
`DataTable::rbind` and the `Cut` binning virtual column) by a shallow
embedding of the two source files into Lean.

Conventions of the embedding:
* C++ `double` arithmetic is modelled by exact rational arithmetic (`ℚ`);
  machine integers are modelled by `ℤ`/`ℕ`.
* `static_cast<int32_t>` applied to a `double` truncates toward zero;
  this is embedded as `truncQ` below (`Int.tdiv` on numerator/denominator).
* A column element is `Option ℤ` / a `(validity, value)` pair: `none` /
  validity `false` is the NA marker.
* Code of the repository that is not among the given source files
  (`Column::rbind`, `Column::extract`, `DataTable::reify`, the statistics
  provider, `ConstNa_ColumnImpl`) is modelled from the specification;
  each such definition carries a doc comment saying so.
-/

namespace DT

/-- Physical storage types of column elements, with the promotion order
void < bool < int32 < int64 < float32 < float64 < string. -/
inductive SType where
  | VOID
  | BOOL8
  | INT32
  | INT64
  | FLOAT32
  | FLOAT64
  | STR
deriving DecidableEq, Repr

/-- Promotion rank of an stype. -/
def SType.rank : SType → ℕ
  | .VOID => 0
  | .BOOL8 => 1
  | .INT32 => 2
  | .INT64 => 3
  | .FLOAT32 => 4
  | .FLOAT64 => 5
  | .STR => 6

/-- The float32 machine epsilon, `std::numeric_limits<float>::epsilon()`
cast to double, as used by `Cut_ColumnImpl::set_cut_coeffs`. -/
def f32epsilon : ℚ := 1 / 2 ^ 23

/-- Truncation toward zero of a rational number: the embedding of C++
`static_cast<int32_t>` applied to a `double` (the cut header's own comment:
"casting to an integer will truncate toward zero"). -/
def truncQ (x : ℚ) : ℤ := x.num.tdiv x.den

/-- Truncation toward zero described through floor and ceiling: floor for
nonnegative arguments, ceiling for negative ones.  This is the
specification-side description of the C++ cast; `truncQ_eq_truncTowardZero`
proves it agrees with the embedding `truncQ`. -/
def truncTowardZero (x : ℚ) : ℤ := if 0 ≤ x then ⌊x⌋ else ⌈x⌉

/-- The three coefficients computed by `Cut_ColumnImpl::set_cut_coeffs`
(out-parameters `a`, `b`, `shift` of the C++ function). -/
structure CutCoeffs where
  a : ℚ
  b : ℚ
  shift : ℤ
deriving DecidableEq, Repr

/-- Embedding of `Cut_ColumnImpl::set_cut_coeffs(a, b, shift, min, max,
nbins, right_closed)`.  `0.5` is `1/2`, and the C++ bool-to-arithmetic
conversion of `right_closed` is the `if` in the `min == max` branch. -/
def Cut_ColumnImpl.set_cut_coeffs (min max : ℚ) (nbins : ℕ)
    (right_closed : Bool) : CutCoeffs :=
  let epsilon : ℚ := f32epsilon
  if min = max then
    { a := 0
      b := 1 / 2 * nbins * (1 + (1 - 2 * (if right_closed then (1 : ℚ) else 0)) * epsilon)
      shift := 0 }
  else
    let a := (1 - epsilon) * nbins / (max - min)
    let b := -a * min
    if right_closed then
      { a := a, b := b, shift := 0 }
    else
      { a := a, b := b + (epsilon - 1) * nbins, shift := (nbins : ℤ) - 1 }

/-- Embedding of `Cut_ColumnImpl::get_element(i, out)`: read the child's
validity and value at row `i`, write
`static_cast<int32_t>(a * value + b) + shift` into `out`, and return the
child's validity flag.  The child column is an abstract element accessor
`ℕ → Bool × ℚ` (validity, value). -/
def Cut_ColumnImpl.get_element (a b : ℚ) (shift : ℤ)
    (child : ℕ → Bool × ℚ) (i : ℕ) : Bool × ℤ :=
  ((child i).1, truncQ (a * (child i).2 + b) + shift)

/-- The statistics the factory `Cut_ColumnImpl::make` queries from the
source column's statistics provider: validity flags for Min and Max, the
two values (as rationals), and whether each stored float value is an
infinity (`_isinf`), which is extra state of the float not representable
in `ℚ`. -/
structure Stats where
  min_valid : Bool
  max_valid : Bool
  min_val : ℚ
  max_val : ℚ
  min_isinf : Bool
  max_isinf : Bool

/-- A source column as seen by `Cut_ColumnImpl::make`: a row count, its
statistics, and an element accessor. -/
structure SrcColumn where
  nrows : ℕ
  stats : Stats
  elem : ℕ → Bool × ℚ

/-- Modelled from the spec: `Column::cast_inplace(SType::FLOAT64)` widens
the source column to 64-bit float, preserving the row count ("casting …
replaces the owned impl but preserves the handle"; "cast the source to
64-bit float").  Element values are already rationals in this embedding,
so the widening is the identity on them. -/
def SrcColumn.cast_inplace (c : SrcColumn) : SrcColumn := c

/-- The two column implementations `Cut_ColumnImpl::make` can return: a
`ConstNa_ColumnImpl` (modelled from the spec: a constant-NA column that
answers invalid for every row) or a `Cut_ColumnImpl` holding the child
accessor and the three coefficients. -/
inductive ColImpl where
  | constNa (nrows : ℕ) (stype : SType)
  | cut (nrows : ℕ) (child : ℕ → Bool × ℚ) (a b : ℚ) (shift : ℤ)

/-- Row count of a column implementation (`Cut_ColumnImpl`'s constructor
passes `col.nrows()` to `Virtual_ColumnImpl`). -/
def ColImpl.nrows : ColImpl → ℕ
  | .constNa n _ => n
  | .cut n _ _ _ _ => n

/-- Stype of a column implementation (`Cut_ColumnImpl`'s constructor
passes `dt::SType::INT32` to `Virtual_ColumnImpl`). -/
def ColImpl.stype : ColImpl → SType
  | .constNa _ s => s
  | .cut _ _ _ _ _ => SType.INT32

/-- Element accessor of the two implementations.  `constNa` is modelled
from the spec: it answers "NA" (validity `false`) for every row. -/
def ColImpl.get_element : ColImpl → ℕ → Bool × ℤ
  | .constNa _ _, _ => (false, 0)
  | .cut _ child a b shift, i => Cut_ColumnImpl.get_element a b shift child i

/-- Embedding of the factory `Cut_ColumnImpl::make(col, nbins,
right_closed)`: query Min/Max; if either is invalid or infinite, or
`nbins == 0`, return a constant-NA column of `INT32` with the source's
row count; otherwise cast the source to float64, derive the coefficients,
and build the `Cut_ColumnImpl`. -/
def Cut_ColumnImpl.make (col : SrcColumn) (nbins : ℕ)
    (right_closed : Bool) : ColImpl :=
  if !col.stats.min_valid || !col.stats.max_valid
      || col.stats.min_isinf || col.stats.max_isinf || nbins == 0 then
    ColImpl.constNa col.nrows SType.INT32
  else
    let min : ℚ := col.stats.min_val
    let max : ℚ := col.stats.max_val
    let col1 := col.cast_inplace
    let c := Cut_ColumnImpl.set_cut_coeffs min max nbins right_closed
    ColImpl.cut col1.nrows col1.elem c.a c.b c.shift

/-- Bin id the Cut column computes for a valid value `v`, as a function of
the statistics `min`/`max`, `nbins` and `right_closed`: coefficients from
`set_cut_coeffs` fed into `get_element`. -/
def cutBin (min max : ℚ) (nbins : ℕ) (right_closed : Bool) (v : ℚ) : ℤ :=
  let c := Cut_ColumnImpl.set_cut_coeffs min max nbins right_closed
  (Cut_ColumnImpl.get_element c.a c.b c.shift (fun _ => (true, v)) 0).2

/-- Truncation toward zero agrees with the floor on nonnegative rationals. -/
theorem truncQ_eq_floor {x : ℚ} (h : 0 ≤ x) : truncQ x = ⌊x⌋ := by
  rw [truncQ, Rat.floor_def,
    Int.tdiv_eq_ediv (Rat.num_nonneg.mpr h) (Int.ofNat_nonneg x.den)]

/-- Truncation toward zero is an odd function. -/
theorem truncQ_neg (x : ℚ) : truncQ (-x) = -truncQ x := by
  rw [truncQ, truncQ, Rat.neg_num, Rat.neg_den, Int.neg_tdiv]

/-- Truncation toward zero agrees with the ceiling on nonpositive
rationals. -/
theorem truncQ_eq_ceil {x : ℚ} (h : x ≤ 0) : truncQ x = ⌈x⌉ := by
  have h2 : (0 : ℚ) ≤ -x := neg_nonneg.mpr h
  have h3 : truncQ (-x) = ⌊-x⌋ := truncQ_eq_floor h2
  rw [truncQ_neg, Int.floor_neg, neg_inj] at h3
  exact h3

/-- The embedded cast `truncQ` is exactly truncation toward zero: floor on
nonnegative arguments, ceiling on negative ones. -/
theorem truncQ_eq_truncTowardZero (x : ℚ) : truncQ x = truncTowardZero x := by
  unfold truncTowardZero
  split
  · exact truncQ_eq_floor (by assumption)
  · exact truncQ_eq_ceil (le_of_lt (lt_of_not_ge (by assumption)))

/-- Truncation of zero is zero. -/
theorem truncQ_zero : truncQ 0 = 0 := rfl

/-- C6: for every row index `i` and every choice of coefficients
`(a, b, shift)`, the validity flag returned by `Cut_ColumnImpl::get_element`
equals the child's validity flag at `i`: an invalid child element yields an
invalid output, a valid child element a valid output. -/
theorem c6_validity_propagation (a b : ℚ) (shift : ℤ)
    (child : ℕ → Bool × ℚ) (i : ℕ) :
    (Cut_ColumnImpl.get_element a b shift child i).1 = (child i).1 := rfl

/-- C4: whenever the Min statistic is invalid, the Max statistic is
invalid, either statistic is infinite, or `nbins = 0`, the factory
`Cut_ColumnImpl::make` returns the constant-NA column of stype `INT32`
with the source column's row count (so it produces no numeric bin value
and signals no failure). -/
theorem c4_make_degenerate (col : SrcColumn) (nbins : ℕ) (right_closed : Bool)
    (h : col.stats.min_valid = false ∨ col.stats.max_valid = false
      ∨ col.stats.min_isinf = true ∨ col.stats.max_isinf = true ∨ nbins = 0) :
    Cut_ColumnImpl.make col nbins right_closed
      = ColImpl.constNa col.nrows SType.INT32 := by
  unfold Cut_ColumnImpl.make
  rcases h with h | h | h | h | h <;> simp [h]

/-- Example source column whose Min statistic is invalid. -/
def srcColNoMin : SrcColumn :=
  { nrows := 3
    stats := { min_valid := false, max_valid := true, min_val := 0,
               max_val := 1, min_isinf := false, max_isinf := false }
    elem := fun _ => (true, 0) }

/-- Witness for C4 at a concrete degenerate input. -/
theorem c4_make_degenerate_witness :
    (srcColNoMin.stats.min_valid = false ∨ srcColNoMin.stats.max_valid = false
      ∨ srcColNoMin.stats.min_isinf = true ∨ srcColNoMin.stats.max_isinf = true
      ∨ (5 : ℕ) = 0)
    ∧ Cut_ColumnImpl.make srcColNoMin 5 true = ColImpl.constNa 3 SType.INT32 :=
  ⟨Or.inl rfl, c4_make_degenerate srcColNoMin 5 true (Or.inl rfl)⟩

/-- C10: in both branches of the factory `Cut_ColumnImpl::make`, the
returned column implementation has the input column's row count and stype
`INT32`. -/
theorem c10_make_nrows_stype (col : SrcColumn) (nbins : ℕ)
    (right_closed : Bool) :
    (Cut_ColumnImpl.make col nbins right_closed).nrows = col.nrows
    ∧ (Cut_ColumnImpl.make col nbins right_closed).stype = SType.INT32 := by
  unfold Cut_ColumnImpl.make
  split <;> simp [ColImpl.nrows, ColImpl.stype, SrcColumn.cast_inplace]

/-- C5: the coefficients derived by `set_cut_coeffs`: for `min = max`,
`a = 0`, `shift = 0` and `b = nbins/2 · (1 − ε)` when right-closed,
`b = nbins/2 · (1 + ε)` otherwise; for `min ≠ max`,
`a = (1 − ε)·nbins/(max − min)`, `b = −a·min` with `(ε − 1)·nbins` added
and `shift = nbins − 1` when not right-closed (`shift = 0` otherwise),
where `ε` is the float32 machine epsilon. -/
theorem c5_cut_coeffs (min max : ℚ) (nbins : ℕ) (right_closed : Bool)
    (hn : 0 < nbins) :
    (min = max →
      (Cut_ColumnImpl.set_cut_coeffs min max nbins right_closed).a = 0
      ∧ (Cut_ColumnImpl.set_cut_coeffs min max nbins right_closed).shift = 0
      ∧ (Cut_ColumnImpl.set_cut_coeffs min max nbins right_closed).b
          = (if right_closed then 1 / 2 * nbins * (1 - f32epsilon)
             else 1 / 2 * nbins * (1 + f32epsilon)))
    ∧ (min ≠ max →
      (Cut_ColumnImpl.set_cut_coeffs min max nbins right_closed).a
          = (1 - f32epsilon) * nbins / (max - min)
      ∧ (Cut_ColumnImpl.set_cut_coeffs min max nbins right_closed).b
          = (if right_closed then
                -((1 - f32epsilon) * nbins / (max - min)) * min
              else
                -((1 - f32epsilon) * nbins / (max - min)) * min
                  + (f32epsilon - 1) * nbins)
      ∧ (Cut_ColumnImpl.set_cut_coeffs min max nbins right_closed).shift
          = (if right_closed then 0 else (nbins : ℤ) - 1)) := by
  constructor
  · intro h
    subst h
    have hif : Cut_ColumnImpl.set_cut_coeffs min min nbins right_closed
        = { a := 0
            b := 1 / 2 * nbins
              * (1 + (1 - 2 * (if right_closed then (1 : ℚ) else 0)) * f32epsilon)
            shift := 0 } := by
      unfold Cut_ColumnImpl.set_cut_coeffs
      simp
    rw [hif]
    refine ⟨rfl, rfl, ?_⟩
    cases right_closed
    · simp
    · simp
      left
      ring
  · intro h
    unfold Cut_ColumnImpl.set_cut_coeffs
    cases right_closed <;> simp [h]

/-- Witness for C5 at a concrete input. -/
theorem c5_cut_coeffs_witness :
    ((0 : ℕ) < 2)
    ∧ (((0 : ℚ) = 1 →
      (Cut_ColumnImpl.set_cut_coeffs 0 1 2 false).a = 0
      ∧ (Cut_ColumnImpl.set_cut_coeffs 0 1 2 false).shift = 0
      ∧ (Cut_ColumnImpl.set_cut_coeffs 0 1 2 false).b
          = (if (false : Bool) then 1 / 2 * (2 : ℕ) * (1 - f32epsilon)
             else 1 / 2 * (2 : ℕ) * (1 + f32epsilon)))
    ∧ ((0 : ℚ) ≠ 1 →
      (Cut_ColumnImpl.set_cut_coeffs 0 1 2 false).a
          = (1 - f32epsilon) * (2 : ℕ) / ((1 : ℚ) - 0)
      ∧ (Cut_ColumnImpl.set_cut_coeffs 0 1 2 false).b
          = (if (false : Bool) then
                -((1 - f32epsilon) * (2 : ℕ) / ((1 : ℚ) - 0)) * 0
              else
                -((1 - f32epsilon) * (2 : ℕ) / ((1 : ℚ) - 0)) * 0
                  + (f32epsilon - 1) * (2 : ℕ))
      ∧ (Cut_ColumnImpl.set_cut_coeffs 0 1 2 false).shift
          = (if (false : Bool) then 0 else ((2 : ℕ) : ℤ) - 1))) :=
  ⟨by norm_num, c5_cut_coeffs 0 1 2 false (by norm_num)⟩

/-- Projection of the value `get_element` writes, as a plain equation. -/
theorem get_element_snd (a b : ℚ) (s : ℤ) (child : ℕ → Bool × ℚ) (i : ℕ) :
    (Cut_ColumnImpl.get_element a b s child i).2
      = truncQ (a * (child i).2 + b) + s := rfl

/-- The bin helper unfolded to coefficients and truncation. -/
theorem cutBin_def (min max : ℚ) (nbins : ℕ) (rc : Bool) (v : ℚ) :
    cutBin min max nbins rc v
      = truncQ ((Cut_ColumnImpl.set_cut_coeffs min max nbins rc).a * v
          + (Cut_ColumnImpl.set_cut_coeffs min max nbins rc).b)
        + (Cut_ColumnImpl.set_cut_coeffs min max nbins rc).shift := rfl

/-- The coefficients for `min = 0`, `max = 1`, `nbins = 2`,
`right_closed = false`, in closed form. -/
theorem coeffs_0_1_2_false :
    Cut_ColumnImpl.set_cut_coeffs 0 1 2 false
      = { a := (1 - f32epsilon) * 2, b := (f32epsilon - 1) * 2, shift := 1 } := by
  unfold Cut_ColumnImpl.set_cut_coeffs
  rw [if_neg (by norm_num : (0 : ℚ) ≠ 1)]
  simp only [Bool.false_eq_true, if_false, CutCoeffs.mk.injEq]
  norm_num

/-- C7 counterexample: with the coefficients the factory derives for
`min = 0`, `max = 1`, `nbins = 2`, `right_closed = false`, the value
`v = 1/4` yields a written bin id (`0`) that differs from
`floor(a·v + b) + shift` (which is `-1`): the C++ cast truncates toward
zero rather than taking the floor. -/
theorem c7_counterexample :
    (Cut_ColumnImpl.get_element (Cut_ColumnImpl.set_cut_coeffs 0 1 2 false).a
        (Cut_ColumnImpl.set_cut_coeffs 0 1 2 false).b
        (Cut_ColumnImpl.set_cut_coeffs 0 1 2 false).shift
        (fun _ => (true, 1 / 4)) 0).2
      ≠ ⌊(Cut_ColumnImpl.set_cut_coeffs 0 1 2 false).a * (1 / 4)
          + (Cut_ColumnImpl.set_cut_coeffs 0 1 2 false).b⌋
        + (Cut_ColumnImpl.set_cut_coeffs 0 1 2 false).shift := by
  rw [get_element_snd, coeffs_0_1_2_false]
  have harg : ((1 - f32epsilon) * 2 * ((fun _ : ℕ => ((true : Bool), (1 : ℚ) / 4)) 0).2
      + (f32epsilon - 1) * 2) = 3 / 2 * f32epsilon - 3 / 2 := by
    show ((1 - f32epsilon) * 2 * (1 / 4) + (f32epsilon - 1) * 2) = _
    ring
  rw [harg]
  have hneg : (3 / 2 * f32epsilon - 3 / 2 : ℚ) ≤ 0 := by norm_num [f32epsilon]
  rw [truncQ_eq_ceil hneg]
  have hceil : ⌈(3 / 2 * f32epsilon - 3 / 2 : ℚ)⌉ = -1 := by
    refine Int.ceil_eq_iff.mpr ⟨?_, ?_⟩ <;> norm_num [f32epsilon]
  have hfloor : ⌊(3 / 2 * f32epsilon - 3 / 2 : ℚ)⌋ = -2 := by
    refine Int.floor_eq_iff.mpr ⟨?_, ?_⟩ <;> norm_num [f32epsilon]
  rw [hceil, hfloor]
  norm_num

/-- C7 (amended): at a row where the child yields a valid value `v`,
`get_element` writes `trunc_toward_zero(a · v + b) + shift` — the floor
for nonnegative arguments but the ceiling for negative ones — not the
floor in general. -/
theorem c7_amended_trunc (a b : ℚ) (shift : ℤ) (child : ℕ → Bool × ℚ)
    (i : ℕ) (v : ℚ) (h : child i = (true, v)) :
    (Cut_ColumnImpl.get_element a b shift child i).2
      = truncTowardZero (a * v + b) + shift := by
  simp [Cut_ColumnImpl.get_element, h, ← truncQ_eq_truncTowardZero]

/-- Witness for C7 (amended) at a concrete input. -/
theorem c7_amended_trunc_witness :
    ((fun _ : ℕ => ((true : Bool), (1 : ℚ) / 4)) 0 = (true, 1 / 4))
    ∧ (Cut_ColumnImpl.get_element 1 (-(1 / 2)) 0
        (fun _ : ℕ => ((true : Bool), (1 : ℚ) / 4)) 0).2
      = truncTowardZero (1 * (1 / 4) + -(1 / 2)) + 0 :=
  ⟨rfl, c7_amended_trunc 1 (-(1 / 2)) 0 _ 0 (1 / 4) rfl⟩

/-- C8 counterexample: for `min = 0`, `max = 1`, `nbins = 2`,
`right_closed = false`, the value `v = min` is assigned bin `0`, not bin
`nbins − 1 = 1` as the claim states for the non-right-closed mode. -/
theorem c8_counterexample : cutBin 0 1 2 false 0 ≠ (2 : ℤ) - 1 := by
  rw [cutBin_def, coeffs_0_1_2_false]
  have harg : ((1 - f32epsilon) * 2 * 0 + (f32epsilon - 1) * 2)
      = 2 * f32epsilon - 2 := by ring
  rw [harg]
  have hneg : (2 * f32epsilon - 2 : ℚ) ≤ 0 := by norm_num [f32epsilon]
  rw [truncQ_eq_ceil hneg]
  have hceil : ⌈(2 * f32epsilon - 2 : ℚ)⌉ = -1 := by
    refine Int.ceil_eq_iff.mpr ⟨?_, ?_⟩ <;> norm_num [f32epsilon]
  rw [hceil]
  norm_num

/-- C8 (amended): for coefficients derived from finite `min < max` and
`nbins > 0`, every valid value strictly between `min` and `max` is
assigned a bin id in `[0, nbins)`; and, provided `nbins ≤ 2^23` (so that
the ε-guard band covers less than one bin), `value = min` is assigned bin
`0` and `value = max` bin `nbins − 1` in BOTH right-closed modes — the
boundary mapping is not swapped when `right_closed = false`. -/
theorem c8_amended (min max : ℚ) (nbins : ℕ) (right_closed : Bool) (v : ℚ)
    (hlt : min < max) (hn : 0 < nbins) :
    (min < v → v < max →
      0 ≤ cutBin min max nbins right_closed v
      ∧ cutBin min max nbins right_closed v < nbins)
    ∧ (nbins ≤ 2 ^ 23 → cutBin min max nbins right_closed min = 0)
    ∧ (nbins ≤ 2 ^ 23 → cutBin min max nbins right_closed max
        = (nbins : ℤ) - 1) := by
  have hne : min ≠ max := ne_of_lt hlt
  have hd : (0 : ℚ) < max - min := sub_pos.mpr hlt
  have hε0 : (0 : ℚ) < f32epsilon := by norm_num [f32epsilon]
  have hε1 : f32epsilon < 1 := by norm_num [f32epsilon]
  have hnQ : (0 : ℚ) < (nbins : ℚ) := by exact_mod_cast hn
  have h1ε : (0 : ℚ) < 1 - f32epsilon := by norm_num [f32epsilon]
  have hA0 : 0 < (1 - f32epsilon) * (nbins : ℚ) / (max - min) :=
    div_pos (mul_pos h1ε hnQ) hd
  have hAd : (1 - f32epsilon) * (nbins : ℚ) / (max - min) * (max - min)
      = (1 - f32epsilon) * (nbins : ℚ) := by
    field_simp
  have hεnn : 0 < f32epsilon * (nbins : ℚ) := mul_pos hε0 hnQ
  have hscale : ∀ w, min < w → w < max →
      0 < (1 - f32epsilon) * (nbins : ℚ) / (max - min) * (w - min)
      ∧ (1 - f32epsilon) * (nbins : ℚ) / (max - min) * (w - min)
          < (1 - f32epsilon) * (nbins : ℚ) := by
    intro w h1 h2
    refine ⟨mul_pos hA0 (by linarith), ?_⟩
    calc (1 - f32epsilon) * (nbins : ℚ) / (max - min) * (w - min)
        < (1 - f32epsilon) * (nbins : ℚ) / (max - min) * (max - min) :=
          mul_lt_mul_of_pos_left (by linarith) hA0
      _ = (1 - f32epsilon) * (nbins : ℚ) := hAd
  have hεn : nbins ≤ 2 ^ 23 → f32epsilon * (nbins : ℚ) ≤ 1 := by
    intro hb
    have h23 : (nbins : ℚ) ≤ 2 ^ 23 := by exact_mod_cast hb
    have hev : f32epsilon = 1 / 2 ^ 23 := rfl
    rw [hev]
    linarith
  cases right_closed
  · -- right_closed = false
    have hc : Cut_ColumnImpl.set_cut_coeffs min max nbins false
        = { a := (1 - f32epsilon) * (nbins : ℚ) / (max - min)
            b := -((1 - f32epsilon) * (nbins : ℚ) / (max - min)) * min
                  + (f32epsilon - 1) * (nbins : ℚ)
            shift := (nbins : ℤ) - 1 } := by
      unfold Cut_ColumnImpl.set_cut_coeffs
      rw [if_neg hne]
      simp
    have hbin : ∀ w, cutBin min max nbins false w
        = truncQ ((1 - f32epsilon) * (nbins : ℚ) / (max - min) * (w - min)
            + (f32epsilon - 1) * (nbins : ℚ)) + ((nbins : ℤ) - 1) := by
      intro w
      simp only [cutBin, hc, Cut_ColumnImpl.get_element]
      congr 2
      ring
    have hzero : (1 - f32epsilon) * (nbins : ℚ)
        + (f32epsilon - 1) * (nbins : ℚ) = 0 := by ring
    have hsplit : (f32epsilon - 1) * (nbins : ℚ)
        = f32epsilon * (nbins : ℚ) - (nbins : ℚ) := by ring
    refine ⟨?_, ?_, ?_⟩
    · intro hv1 hv2
      obtain ⟨hp, hu⟩ := hscale v hv1 hv2
      rw [hbin v]
      have hx_lt : (1 - f32epsilon) * (nbins : ℚ) / (max - min) * (v - min)
          + (f32epsilon - 1) * (nbins : ℚ) < 0 := by linarith
      have hx_gt : -(nbins : ℚ)
          < (1 - f32epsilon) * (nbins : ℚ) / (max - min) * (v - min)
            + (f32epsilon - 1) * (nbins : ℚ) := by linarith
      rw [truncQ_eq_ceil hx_lt.le]
      have hcle : ⌈(1 - f32epsilon) * (nbins : ℚ) / (max - min) * (v - min)
          + (f32epsilon - 1) * (nbins : ℚ)⌉ ≤ 0 :=
        Int.ceil_le.mpr (by push_cast; linarith)
      have hcgt : -(nbins : ℤ)
          < ⌈(1 - f32epsilon) * (nbins : ℚ) / (max - min) * (v - min)
              + (f32epsilon - 1) * (nbins : ℚ)⌉ :=
        Int.lt_ceil.mpr (by push_cast; linarith)
      omega
    · intro hb
      rw [hbin min]
      have harg : (1 - f32epsilon) * (nbins : ℚ) / (max - min) * (min - min)
          + (f32epsilon - 1) * (nbins : ℚ) = (f32epsilon - 1) * (nbins : ℚ) := by
        ring
      rw [harg]
      have hneg : (f32epsilon - 1) * (nbins : ℚ) < 0 := by nlinarith
      rw [truncQ_eq_ceil hneg.le]
      have hceil : ⌈(f32epsilon - 1) * (nbins : ℚ)⌉ = 1 - (nbins : ℤ) := by
        refine Int.ceil_eq_iff.mpr ⟨?_, ?_⟩
        · push_cast
          linarith
        · push_cast
          have h4 := hεn hb
          linarith
      rw [hceil]
      omega
    · intro hb
      rw [hbin max]
      have harg : (1 - f32epsilon) * (nbins : ℚ) / (max - min) * (max - min)
          + (f32epsilon - 1) * (nbins : ℚ) = 0 := by
        rw [hAd]
        ring
      rw [harg, truncQ_zero]
      omega
  · -- right_closed = true
    have hc : Cut_ColumnImpl.set_cut_coeffs min max nbins true
        = { a := (1 - f32epsilon) * (nbins : ℚ) / (max - min)
            b := -((1 - f32epsilon) * (nbins : ℚ) / (max - min)) * min
            shift := 0 } := by
      unfold Cut_ColumnImpl.set_cut_coeffs
      rw [if_neg hne]
      simp
    have hbin : ∀ w, cutBin min max nbins true w
        = truncQ ((1 - f32epsilon) * (nbins : ℚ) / (max - min) * (w - min)) := by
      intro w
      simp only [cutBin, hc, Cut_ColumnImpl.get_element, add_zero]
      congr 1
      ring
    have hsplit : (1 - f32epsilon) * (nbins : ℚ)
        = (nbins : ℚ) - f32epsilon * (nbins : ℚ) := by ring
    refine ⟨?_, ?_, ?_⟩
    · intro hv1 hv2
      obtain ⟨hp, hu⟩ := hscale v hv1 hv2
      rw [hbin v]
      rw [truncQ_eq_floor hp.le]
      refine ⟨Int.floor_nonneg.mpr hp.le, Int.floor_lt.mpr ?_⟩
      push_cast
      linarith
    · intro hb
      rw [hbin min]
      have harg : (1 - f32epsilon) * (nbins : ℚ) / (max - min) * (min - min)
          = 0 := by ring
      rw [harg, truncQ_zero]
    · intro hb
      rw [hbin max, hAd]
      have hpos : (0 : ℚ) ≤ (1 - f32epsilon) * (nbins : ℚ) := by nlinarith
      rw [truncQ_eq_floor hpos]
      refine Int.floor_eq_iff.mpr ⟨?_, ?_⟩
      · push_cast
        have h4 := hεn hb
        linarith
      · push_cast
        linarith

/-- Witness for C8 (amended) at a concrete input: `min = 0`, `max = 1`,
`nbins = 2`, `right_closed = true`, interior value `1/2`. -/
theorem c8_amended_witness :
    (0 : ℤ) ≤ cutBin 0 1 2 true (1 / 2) ∧ cutBin 0 1 2 true (1 / 2) < 2
    ∧ cutBin 0 1 2 true 0 = 0 ∧ cutBin 0 1 2 true 1 = (2 : ℤ) - 1 := by
  have h := c8_amended 0 1 2 true (1 / 2) (by norm_num) (by norm_num)
  obtain ⟨h1, h2⟩ := h.1 (by norm_num) (by norm_num)
  exact ⟨h1, h2, h.2.1 (by norm_num), h.2.2 (by norm_num)⟩

/-! ## The rbind side: columns, tables, and `DataTable::rbind`

Element values are modelled as `ℤ` codes; only the NA pattern (the
`Option` layer) and the stype matter for the claims below.  A table's
column array is a `List (Option Column)`: `none` is a `NULL` slot, as
produced by `dtrealloc` for the freshly grown positions. -/

/-- A column: an stype and a list of elements, `none` being NA.  The row
count is the length of the element list. -/
structure Column where
  stype : SType
  elems : List (Option ℤ)
deriving DecidableEq, Repr

/-- Row count of a column. -/
def Column.nrows (c : Column) : ℕ := c.elems.length

/-- The all-NA placeholder `new Column(ST_VOID, n)`: the void stype and
`n` NA rows. -/
def Column.void (n : ℕ) : Column := ⟨SType.VOID, List.replicate n none⟩

/-- Modelled from the spec (§4.2): `Column::extract(rowindex)` applies a
RowIndex (an explicit array of physical indices) on top of the column:
logical row `p` of the result is physical row `rowindex[p]` of the
receiver (out-of-range or NA-marker positions give NA). -/
def Column.extract (ri : List ℕ) (c : Column) : Column :=
  ⟨c.stype, ri.map (fun k => c.elems.getD k none)⟩

/-- Modelled from the spec (§4.3): whether a set of input stypes can be
fused by `Column::rbind` — the promotion order resolves every mix except
string against a non-string, non-void type. -/
def rbindCompatible (sts : List SType) : Bool :=
  !(sts.contains SType.STR
    && sts.any (fun s => s != SType.STR && s != SType.VOID))

/-- Modelled from the spec (§4.3): the result stype of a fusion is the
promotion-rank maximum across all inputs that are not the void
placeholder type. -/
def joinedStype (sts : List SType) : SType :=
  (sts.filter (fun s => s ≠ SType.VOID)).foldl
    (fun acc s => if acc.rank ≤ s.rank then s else acc) SType.VOID

/-- Modelled from the spec (§4.3): `Column::rbind` fuses the receiver
(`col0`, "what came before") with one contribution per source table, in
order; the result's rows are the receiver's rows followed by each block's
rows with NA patterns unchanged, and its stype is the promotion maximum;
it fails (NULL) when the inputs cannot be fused. -/
def Column.rbind (col0 : Column) (cols0 : List Column) : Option Column :=
  let sts := col0.stype :: cols0.map Column.stype
  if rbindCompatible sts then
    some ⟨joinedStype sts, col0.elems ++ (cols0.map Column.elems).flatten⟩
  else
    none

/-- A data table: a column array with possible `NULL` slots, the `ncols`
and `nrows` fields, and the optional table-level RowIndex. -/
structure DataTable where
  columns : List (Option Column)
  ncols : ℕ
  nrows : ℕ
  rowindex : Option (List ℕ)
deriving DecidableEq, Repr

/-- The default (empty) table, used for out-of-range list access. -/
def dtEmpty : DataTable := ⟨[], 0, 0, none⟩

/-- Column `k` of a table (NULL slots and out-of-range access give a
zero-row void column; the algorithm only reads valid slots). -/
def DataTable.getColumn (t : DataTable) (k : ℕ) : Column :=
  (t.columns.getD k none).getD (Column.void 0)

/-- Modelled from the spec (§4.1): `reify()` resolves the table-level
RowIndex into every column and clears it; `nrows`, `ncols` are
unchanged. -/
def DataTable.reify (t : DataTable) : DataTable :=
  match t.rowindex with
  | none => t
  | some ri =>
      { t with columns := t.columns.map (Option.map (Column.extract ri))
               rowindex := none }

/-- The per-source-table contribution built in the inner loop of
`DataTable::rbind` (lines 52-59): an all-NA void column sized to table
`j` when `cols[i][j] < 0`; otherwise column `cols[i][j]` of table `j`,
view-resolved through the table's RowIndex when it has one, else shared
directly (`new Column(col)` shares the impl). -/
def contribution (dts : List DataTable) (colsRow : List ℤ) (j : ℕ) : Column :=
  let tj := dts.getD j dtEmpty
  let cij := colsRow.getD j (-1)
  if cij < 0 then
    Column.void tj.nrows
  else
    match tj.rowindex with
    | some ri => Column.extract ri (tj.getColumn cij.toNat)
    | none => tj.getColumn cij.toNat

/-- The `ndts` contributions `cols0[0..ndts)` for result column `i`. -/
def mkContribs (dts : List DataTable) (colsRow : List ℤ) : List Column :=
  (List.range dts.length).map (contribution dts colsRow)

/-- The loop of `DataTable::rbind` (lines 47-65) over the result column
indices: read slot `i` (a `NULL` slot means `i ≥ ncols`, for which the
code builds a void column of the receiver's row count), build the
contributions, fuse them with `Column::rbind`, and store the result in
slot `i`; abort with the current (partially updated) column array when a
fusion fails.  The source-table array is threaded through and returned,
mirroring that the loop holds `dts` by pointer. -/
def rbindLoop (nrows0 : ℕ) (cols : List (List ℤ)) :
    List ℕ → List (Option Column) → List DataTable
    → List (Option Column) × Bool × List DataTable
  | [], arr, srcs => (arr, true, srcs)
  | i :: rest, arr, srcs =>
      match Column.rbind ((arr.getD i none).getD (Column.void nrows0))
          (mkContribs srcs (cols.getD i [])) with
      | none => (arr, false, srcs)
      | some ret => rbindLoop nrows0 cols rest (arr.set i (some ret)) srcs

/-- Embedding of `DataTable::rbind(dts, cols, ndts, ncols__)`:
reify the receiver, grow the column array to `ncols__` slots (new slots
`NULL`), precompute the new row count, run the per-column fusion loop,
and on success commit `ncols`/`nrows`.  Returns the receiver's final
state, the success flag (`NULL` return means `false`), and the source
array as the call leaves it. -/
def DataTable.rbind (dt : DataTable) (dts : List DataTable)
    (cols : List (List ℤ)) (ncols__ : ℕ) :
    DataTable × Bool × List DataTable :=
  let dt1 := dt.reify
  let arr0 := dt1.columns.take dt1.ncols
      ++ List.replicate (ncols__ - dt1.ncols) none
  let nrows__ := dt1.nrows + (dts.map DataTable.nrows).sum
  match rbindLoop dt1.nrows cols (List.range ncols__) arr0 dts with
  | (arr, true, srcs) =>
      ({ columns := arr, ncols := ncols__, nrows := nrows__,
         rowindex := dt1.rowindex }, true, srcs)
  | (arr, false, srcs) =>
      ({ dt1 with columns := arr }, false, srcs)

/-- Well-formedness of a table (the documented invariants of §3): the
column array has exactly `ncols` live (non-NULL) slots; with a
table-level RowIndex its length is `nrows`; without one every column has
`nrows` rows. -/
def DataTable.wf (t : DataTable) : Prop :=
  t.columns.length = t.ncols
  ∧ (∀ c ∈ t.columns, c.isSome = true)
  ∧ (t.rowindex.isSome = true → (t.rowindex.getD []).length = t.nrows)
  ∧ (t.rowindex = none →
      ∀ c ∈ t.columns, (c.getD (Column.void 0)).nrows = t.nrows)

instance (t : DataTable) : Decidable t.wf := by
  unfold DataTable.wf
  infer_instance

/-- Element list of result column `i` of a table (empty for a NULL
slot). -/
def DataTable.colElems (t : DataTable) (i : ℕ) : List (Option ℤ) :=
  ((t.columns.getD i none).getD (Column.void 0)).elems

/-- Offset of source-table block `j` inside a fused result column: the
receiver's rows come first, then the blocks of tables `0..j`. -/
def blockOffset (dt : DataTable) (dts : List DataTable) (j : ℕ) : ℕ :=
  dt.nrows + ((dts.take j).map DataTable.nrows).sum

/-- Reify does not change the `ncols` field. -/
theorem reify_ncols (t : DataTable) : t.reify.ncols = t.ncols := by
  unfold DataTable.reify
  rcases t.rowindex <;> rfl

/-- Reify does not change the `nrows` field. -/
theorem reify_nrows (t : DataTable) : t.reify.nrows = t.nrows := by
  unfold DataTable.reify
  rcases t.rowindex <;> rfl

/-- The fusion loop returns the source-table array it was given: no
iteration writes it. -/
theorem rbindLoop_srcs (nrows0 : ℕ) (cols : List (List ℤ)) (is : List ℕ) :
    ∀ (arr : List (Option Column)) (srcs : List DataTable),
      (rbindLoop nrows0 cols is arr srcs).2.2 = srcs := by
  induction is with
  | nil => intro arr srcs; rfl
  | cons i rest ih =>
      intro arr srcs
      unfold rbindLoop
      cases Column.rbind ((arr.getD i none).getD (Column.void nrows0))
          (mkContribs srcs (cols.getD i [])) with
      | none => rfl
      | some ret => exact ih _ _

/-- C9: `DataTable::rbind` never modifies the source tables passed in
`dts`: the source array as the call leaves it (columns, ncols, nrows and
rowindex of every table included) is exactly the input array, whether
the operation succeeds or fails. -/
theorem c9_sources_read_only (dt : DataTable) (dts : List DataTable)
    (cols : List (List ℤ)) (ncols__ : ℕ) :
    (DataTable.rbind dt dts cols ncols__).2.2 = dts := by
  simp only [DataTable.rbind]
  have h := rbindLoop_srcs dt.reify.nrows cols (List.range ncols__)
    (dt.reify.columns.take dt.reify.ncols
      ++ List.replicate (ncols__ - dt.reify.ncols) none) dts
  rcases hr : rbindLoop dt.reify.nrows cols (List.range ncols__)
      (dt.reify.columns.take dt.reify.ncols
        ++ List.replicate (ncols__ - dt.reify.ncols) none) dts
    with ⟨arr, ok, srcs⟩
  rw [hr] at h
  cases ok <;> simp [hr] <;> exact h

/-- C2: every successful `DataTable::rbind` leaves the receiver with
`nrows` equal to its row count before the call plus the sum of the
source tables' row counts. -/
theorem c2_row_count_law (dt : DataTable) (dts : List DataTable)
    (cols : List (List ℤ)) (ncols__ : ℕ)
    (hok : (DataTable.rbind dt dts cols ncols__).2.1 = true) :
    (DataTable.rbind dt dts cols ncols__).1.nrows
      = dt.nrows + (dts.map DataTable.nrows).sum := by
  simp only [DataTable.rbind] at hok ⊢
  rcases hr : rbindLoop dt.reify.nrows cols (List.range ncols__)
      (dt.reify.columns.take dt.reify.ncols
        ++ List.replicate (ncols__ - dt.reify.ncols) none) dts
    with ⟨arr, ok, srcs⟩
  rw [hr] at hok
  cases ok
  · simp at hok
  · simp [hr, reify_nrows]

/-- Table A of the spec's rbind scenarios: one int32 column, two rows. -/
def rT0 : DataTable := ⟨[some ⟨SType.INT32, [some 10, some 20]⟩], 1, 2, none⟩

/-- Table B of the spec's rbind scenarios: one int32 column, one row. -/
def rT1 : DataTable := ⟨[some ⟨SType.INT32, [some 30]⟩], 1, 1, none⟩

/-- Witness for C2 at the spec's scenario (§8). -/
theorem c2_row_count_law_witness :
    (DataTable.rbind rT0 [rT1] [[0]] 1).2.1 = true
    ∧ (DataTable.rbind rT0 [rT1] [[0]] 1).1.nrows
        = rT0.nrows + ([rT1].map DataTable.nrows).sum :=
  ⟨by decide, c2_row_count_law rT0 [rT1] [[0]] 1 (by decide)⟩

/-- Receiver with an int32 column and a string column. -/
def rTmixed : DataTable :=
  ⟨[some ⟨SType.INT32, [some 1]⟩, some ⟨SType.STR, [some 7]⟩], 2, 1, none⟩

/-- Source table with two int32 columns. -/
def rTints : DataTable :=
  ⟨[some ⟨SType.INT32, [some 2]⟩, some ⟨SType.INT32, [some 3]⟩], 2, 1, none⟩

/-- C1 counterexample: an rbind that fails at result column 1 (string
fused against int) after having already replaced column 0 with its fused
version — the failed call reports failure AND leaves the receiver's
column array contents changed, so the receiver is not observably
unchanged. -/
theorem c1_counterexample :
    (DataTable.rbind rTmixed [rTints] [[0], [1]] 2).2.1 = false
    ∧ (DataTable.rbind rTmixed [rTints] [[0], [1]] 2).1 ≠ rTmixed :=
  ⟨by decide, by decide⟩

/-- C1 (amended): when `DataTable::rbind` fails, the receiver's `ncols`
and `nrows` fields are unchanged (the commit in lines 66-67 is never
reached), but the receiver is NOT guaranteed observably unchanged: the
column array may have been partially overwritten by already-fused
columns and the table-level RowIndex has been cleared by the initial
`reify()`. -/
theorem c1_amended_fail_fields (dt : DataTable) (dts : List DataTable)
    (cols : List (List ℤ)) (ncols__ : ℕ)
    (hfail : (DataTable.rbind dt dts cols ncols__).2.1 = false) :
    (DataTable.rbind dt dts cols ncols__).1.ncols = dt.ncols
    ∧ (DataTable.rbind dt dts cols ncols__).1.nrows = dt.nrows := by
  simp only [DataTable.rbind] at hfail ⊢
  rcases hr : rbindLoop dt.reify.nrows cols (List.range ncols__)
      (dt.reify.columns.take dt.reify.ncols
        ++ List.replicate (ncols__ - dt.reify.ncols) none) dts
    with ⟨arr, ok, srcs⟩
  rw [hr] at hfail
  cases ok
  · simp [hr, reify_ncols, reify_nrows]
  · simp at hfail

/-- Witness for C1 (amended) at the concrete failing input. -/
theorem c1_amended_fail_fields_witness :
    (DataTable.rbind rTmixed [rTints] [[0], [1]] 2).2.1 = false
    ∧ (DataTable.rbind rTmixed [rTints] [[0], [1]] 2).1.ncols = rTmixed.ncols
    ∧ (DataTable.rbind rTmixed [rTints] [[0], [1]] 2).1.nrows
        = rTmixed.nrows :=
  ⟨by decide, c1_amended_fail_fields rTmixed [rTints] [[0], [1]] 2 (by decide)⟩

/-- The fusion loop preserves the column-array length. -/
theorem rbindLoop_length (nrows0 : ℕ) (cols : List (List ℤ)) (is : List ℕ) :
    ∀ arr srcs, ((rbindLoop nrows0 cols is arr srcs).1).length = arr.length := by
  induction is with
  | nil => intro arr srcs; rfl
  | cons i rest ih =>
      intro arr srcs
      unfold rbindLoop
      split
      · rfl
      · rw [ih, List.length_set]

/-- The fusion loop leaves slots outside its index list unchanged. -/
theorem rbindLoop_untouched (nrows0 : ℕ) (cols : List (List ℤ)) (is : List ℕ) :
    ∀ arr srcs k, k ∉ is →
      ((rbindLoop nrows0 cols is arr srcs).1).getD k none = arr.getD k none := by
  induction is with
  | nil => intro arr srcs k _; rfl
  | cons i rest ih =>
      intro arr srcs k hk
      have hki : k ≠ i := by
        intro h
        exact hk (h ▸ List.mem_cons_self i rest)
      have hkr : k ∉ rest := fun h => hk (List.mem_cons_of_mem i h)
      unfold rbindLoop
      split
      · rfl
      · rw [ih _ _ _ hkr, List.getD_eq_getElem?_getD,
          List.getElem?_set_ne (Ne.symm hki), ← List.getD_eq_getElem?_getD]

/-- On success, the loop has set every processed slot to the fusion of
its initial contents with the per-table contributions. -/
theorem rbindLoop_success_at (nrows0 : ℕ) (cols : List (List ℤ)) (is : List ℕ) :
    ∀ arr srcs arr2 srcs2, is.Nodup →
      rbindLoop nrows0 cols is arr srcs = (arr2, true, srcs2) →
      ∀ i ∈ is, i < arr.length →
        ∃ ret, Column.rbind ((arr.getD i none).getD (Column.void nrows0))
            (mkContribs srcs (cols.getD i [])) = some ret
          ∧ arr2.getD i none = some ret := by
  induction is with
  | nil =>
      intro arr srcs arr2 srcs2 _ _ i hi _
      exact absurd hi (List.not_mem_nil i)
  | cons j rest ih =>
      intro arr srcs arr2 srcs2 hnd heq i hi hlen
      rw [List.nodup_cons] at hnd
      unfold rbindLoop at heq
      split at heq
      · simp at heq
      · rename_i ret hcr
        rcases List.mem_cons.mp hi with hij | hir
        · subst hij
          refine ⟨ret, hcr, ?_⟩
          have hu := rbindLoop_untouched nrows0 cols rest
            (arr.set i (some ret)) srcs i hnd.1
          rw [heq] at hu
          rw [hu, List.getD_eq_getElem?_getD, List.getElem?_set_self hlen]
          rfl
        · have hlen2 : i < (arr.set j (some ret)).length := by
            rw [List.length_set]; exact hlen
          obtain ⟨ret2, hcr2, hslot⟩ :=
            ih (arr.set j (some ret)) srcs arr2 srcs2 hnd.2 heq i hir hlen2
          have hji : j ≠ i := fun h => hnd.1 (h ▸ hir)
          have hst : (arr.set j (some ret)).getD i none = arr.getD i none := by
            rw [List.getD_eq_getElem?_getD, List.getElem?_set_ne hji,
              ← List.getD_eq_getElem?_getD]
          rw [hst] at hcr2
          exact ⟨ret2, hcr2, hslot⟩

/-- The elements of a successful fusion: the receiver's elements followed
by the contributions' element blocks in order. -/
theorem Column.rbind_elems (col0 : Column) (cols0 : List Column) (ret : Column)
    (h : Column.rbind col0 cols0 = some ret) :
    ret.elems = col0.elems ++ (cols0.map Column.elems).flatten := by
  simp only [Column.rbind] at h
  split at h
  · cases h
    rfl
  · cases h

/-- Indexing a flattened list of blocks: dropping the lengths of the
first `j` blocks and taking block `j`'s length yields block `j`. -/
theorem flatten_drop_take {α : Type} (Ls : List (List α)) :
    ∀ (j : ℕ) (hj : j < Ls.length),
      ((Ls.flatten).drop (((Ls.take j).map List.length).sum)).take
          (Ls[j].length)
        = Ls[j] := by
  induction Ls with
  | nil => intro j hj; simp at hj
  | cons L tl ih =>
      intro j hj
      cases j with
      | zero =>
          simp only [List.take_zero, List.map_nil, List.sum_nil,
            List.drop_zero, List.flatten_cons, List.getElem_cons_zero]
          exact List.take_left L tl.flatten
      | succ j =>
          have hj2 : j < tl.length := by simpa using hj
          simp only [List.take_succ_cons, List.map_cons, List.sum_cons,
            List.flatten_cons, List.getElem_cons_succ]
          rw [List.drop_append]
          exact ih j hj2

/-- Reify preserves the length of the column array. -/
theorem reify_columns_length (t : DataTable) :
    t.reify.columns.length = t.columns.length := by
  unfold DataTable.reify
  rcases t.rowindex <;> simp

/-- In a well-formed table, slot `k < ncols` holds a column, whose row
count is `nrows` when there is no table-level RowIndex. -/
theorem wf_slot (t : DataTable) (hwf : t.wf) (k : ℕ) (hk : k < t.ncols) :
    ∃ c : Column, t.columns.getD k none = some c
      ∧ (t.rowindex = none → c.nrows = t.nrows) := by
  obtain ⟨hlen, hsome, _, hnor⟩ := hwf
  have hk2 : k < t.columns.length := by rw [hlen]; exact hk
  have hmem : t.columns[k] ∈ t.columns := List.getElem_mem hk2
  have hs := hsome _ hmem
  rcases hx : t.columns[k] with _ | c
  · rw [hx] at hs
    simp at hs
  · refine ⟨c, ?_, ?_⟩
    · rw [List.getD_eq_getElem _ _ hk2, hx]
    · intro hnone
      have h2 := hnor hnone _ hmem
      rw [hx] at h2
      simpa using h2

/-- After reify, every slot `k < ncols` of a well-formed table holds a
column with exactly the table's row count. -/
theorem reify_slot (t : DataTable) (hwf : t.wf) (k : ℕ) (hk : k < t.ncols) :
    ∃ c : Column, t.reify.columns.getD k none = some c ∧ c.nrows = t.nrows := by
  obtain ⟨c, hslot, hnone⟩ := wf_slot t hwf k hk
  have hk2 : k < t.columns.length := by rw [hwf.1]; exact hk
  unfold DataTable.reify
  rcases hri : t.rowindex with _ | ri
  · exact ⟨c, hslot, hnone hri⟩
  · have hk3 : k < (t.columns.map (Option.map (Column.extract ri))).length := by
      simpa using hk2
    refine ⟨Column.extract ri c, ?_, ?_⟩
    · rw [List.getD_eq_getElem _ _ hk3, List.getElem_map]
      rw [List.getD_eq_getElem _ _ hk2] at hslot
      rw [hslot]
      rfl
    · have h3 := hwf.2.2.1
      rw [hri] at h3
      simp only [Option.isSome_some, Option.getD_some] at h3
      simpa [Column.extract, Column.nrows] using h3 trivial


/-- Row count of each per-table contribution: exactly the source table's
`nrows`, given well-formedness and an in-range column index when the
mapping is non-negative. -/
theorem contribution_nrows (dts : List DataTable) (colsRow : List ℤ)
    (hwfs : ∀ t ∈ dts, t.wf) (j : ℕ) (hj : j < dts.length)
    (hin : 0 ≤ colsRow.getD j (-1) →
      (colsRow.getD j (-1)).toNat < (dts.getD j dtEmpty).ncols) :
    (contribution dts colsRow j).nrows = (dts.getD j dtEmpty).nrows := by
  have hmem : dts.getD j dtEmpty ∈ dts := by
    rw [List.getD_eq_getElem _ _ hj]
    exact List.getElem_mem hj
  have hwfj := hwfs _ hmem
  simp only [contribution]
  split
  · simp [Column.void, Column.nrows]
  · rename_i hneg
    have hge0 : 0 ≤ colsRow.getD j (-1) := le_of_not_lt hneg
    rcases hri : (dts.getD j dtEmpty).rowindex with _ | ri
    · obtain ⟨c, hslot, hnone⟩ := wf_slot _ hwfj _ (hin hge0)
      simp only [DataTable.getColumn]
      rw [hslot, Option.getD_some]
      exact hnone hri
    · have h3 := hwfj.2.2.1
      rw [hri] at h3
      simp only [Option.isSome_some, Option.getD_some] at h3
      simpa [Column.extract, Column.nrows] using h3 trivial

/-- The element-block lengths of the contributions are the source
tables' row counts. -/
theorem contribs_lengths (dts : List DataTable) (colsRow : List ℤ)
    (hall : ∀ j (hj : j < dts.length),
      (contribution dts colsRow j).nrows = (dts.getD j dtEmpty).nrows) :
    ((mkContribs dts colsRow).map Column.elems).map List.length
      = dts.map DataTable.nrows := by
  apply List.ext_getElem
  · simp [mkContribs]
  · intro n h1 h2
    have hn : n < dts.length := by simpa [mkContribs] using h1
    simp only [List.getElem_map, mkContribs, List.getElem_range]
    have h3 := hall n hn
    rw [List.getD_eq_getElem _ _ hn] at h3
    exact h3

/-- C3: the NA-fill law of `DataTable::rbind`.  On success: (1) every
result column `i` at or beyond the receiver's prior `ncols` starts with
`nrows`-before-call NA rows (the receiver contributed nothing to that
field); (2) for every result column `i` and source table `j` whose
column map entry is negative, block `j` of result column `i` is entirely
NA. -/
theorem c3_na_fill (dt : DataTable) (dts : List DataTable)
    (cols : List (List ℤ)) (ncols__ : ℕ)
    (hwf : dt.wf) (hwfs : ∀ t ∈ dts, t.wf) (hge : dt.ncols ≤ ncols__)
    (hin : ∀ i, i < ncols__ → ∀ j, j < dts.length →
      0 ≤ (cols.getD i []).getD j (-1) →
      ((cols.getD i []).getD j (-1)).toNat < (dts.getD j dtEmpty).ncols)
    (hok : (DataTable.rbind dt dts cols ncols__).2.1 = true) :
    (∀ i, dt.ncols ≤ i → i < ncols__ →
      ((DataTable.rbind dt dts cols ncols__).1.colElems i).take dt.nrows
        = List.replicate dt.nrows none)
    ∧ (∀ i, i < ncols__ → ∀ j, j < dts.length →
        (cols.getD i []).getD j (-1) < 0 →
        (((DataTable.rbind dt dts cols ncols__).1.colElems i).drop
            (blockOffset dt dts j)).take (dts.getD j dtEmpty).nrows
          = List.replicate (dts.getD j dtEmpty).nrows none) := by
  simp only [DataTable.rbind] at hok ⊢
  rcases hr : rbindLoop dt.reify.nrows cols (List.range ncols__)
      (dt.reify.columns.take dt.reify.ncols
        ++ List.replicate (ncols__ - dt.reify.ncols) none) dts
    with ⟨arr, ok, srcs⟩
  rw [hr] at hok
  cases ok
  · simp at hok
  dsimp only
  clear hok
  have hnc : dt.reify.ncols = dt.ncols := reify_ncols dt
  have hnr : dt.reify.nrows = dt.nrows := reify_nrows dt
  have hcl : dt.reify.columns.length = dt.ncols := by
    rw [reify_columns_length, hwf.1]
  have htake : dt.reify.columns.take dt.reify.ncols = dt.reify.columns := by
    apply List.take_of_length_le
    rw [hcl, hnc]
  have hlen0 : (dt.reify.columns.take dt.reify.ncols
      ++ List.replicate (ncols__ - dt.reify.ncols) none).length = ncols__ := by
    rw [List.length_append, List.length_take, List.length_replicate, hcl, hnc]
    omega
  have hslot0 : ∀ i, i < dt.ncols →
      ∃ c : Column, (dt.reify.columns.take dt.reify.ncols
        ++ List.replicate (ncols__ - dt.reify.ncols) none).getD i none = some c
      ∧ c.nrows = dt.nrows := by
    intro i hi
    obtain ⟨c, hc, hcn⟩ := reify_slot dt hwf i hi
    refine ⟨c, ?_, hcn⟩
    rw [htake, List.getD_eq_getElem?_getD,
      List.getElem?_append_left (by rw [hcl]; exact hi),
      ← List.getD_eq_getElem?_getD]
    exact hc
  have hslotNone : ∀ i, dt.ncols ≤ i → i < ncols__ →
      (dt.reify.columns.take dt.reify.ncols
        ++ List.replicate (ncols__ - dt.reify.ncols) none).getD i none
        = none := by
    intro i hi1 hi2
    rw [htake, List.getD_eq_getElem?_getD,
      List.getElem?_append_right (by rw [hcl]; exact hi1),
      List.getElem?_replicate]
    split <;> rfl
  have hmain : ∀ i, i < ncols__ →
      ∃ ret, Column.rbind
          (((dt.reify.columns.take dt.reify.ncols
            ++ List.replicate (ncols__ - dt.reify.ncols) none).getD i none).getD
            (Column.void dt.reify.nrows))
          (mkContribs dts (cols.getD i [])) = some ret
        ∧ arr.getD i none = some ret := by
    intro i hi
    exact rbindLoop_success_at dt.reify.nrows cols (List.range ncols__)
      _ dts arr srcs (List.nodup_range ncols__) hr i
      (List.mem_range.mpr hi) (by rw [hlen0]; exact hi)
  have hcol0len : ∀ i, i < ncols__ →
      (((dt.reify.columns.take dt.reify.ncols
        ++ List.replicate (ncols__ - dt.reify.ncols) none).getD i none).getD
        (Column.void dt.reify.nrows)).elems.length = dt.nrows := by
    intro i hi
    by_cases hlow : i < dt.ncols
    · obtain ⟨c, hc, hcn⟩ := hslot0 i hlow
      rw [hc, Option.getD_some]
      exact hcn
    · rw [hslotNone i (le_of_not_lt hlow) hi]
      simp [Column.void, hnr]
  refine ⟨?_, ?_⟩
  · -- part (1): fresh columns start with nrows-before NA rows
    intro i hi1 hi2
    obtain ⟨ret, hfuse, hslot⟩ := hmain i hi2
    simp only [DataTable.colElems]
    rw [hslot, Option.getD_some]
    have hc0 : ((dt.reify.columns.take dt.reify.ncols
        ++ List.replicate (ncols__ - dt.reify.ncols) none).getD i none).getD
        (Column.void dt.reify.nrows) = Column.void dt.reify.nrows := by
      rw [hslotNone i hi1 hi2]
      rfl
    rw [hc0] at hfuse
    rw [Column.rbind_elems _ _ _ hfuse]
    have hve : (Column.void dt.reify.nrows).elems
        = List.replicate dt.nrows none := by
      rw [hnr]
      rfl
    rw [hve]
    have h4 := List.take_left (List.replicate dt.nrows (none : Option ℤ))
      ((mkContribs dts (cols.getD i [])).map Column.elems).flatten
    rw [List.length_replicate] at h4
    exact h4
  · -- part (2): negative colmap entries give all-NA blocks
    intro i hi j hj hneg
    obtain ⟨ret, hfuse, hslot⟩ := hmain i hi
    simp only [DataTable.colElems]
    rw [hslot, Option.getD_some]
    rw [Column.rbind_elems _ _ _ hfuse]
    have hall : ∀ k, k < dts.length →
        (contribution dts (cols.getD i []) k).nrows
          = (dts.getD k dtEmpty).nrows :=
      fun k hk => contribution_nrows dts _ hwfs k hk (hin i hi k hk)
    have hLs := contribs_lengths dts (cols.getD i [])
      (fun k hk => hall k hk)
    have hjL : j < ((mkContribs dts (cols.getD i [])).map Column.elems).length := by
      simpa [mkContribs] using hj
    have hLj : ((mkContribs dts (cols.getD i [])).map Column.elems)[j]
        = (contribution dts (cols.getD i []) j).elems := by
      simp [mkContribs]
    have hnj : ((((mkContribs dts (cols.getD i [])).map Column.elems))[j]).length
        = (dts.getD j dtEmpty).nrows := by
      rw [hLj]
      exact hall j hj
    simp only [blockOffset]
    rw [← hcol0len i hi, List.drop_append]
    have hsum : ((dts.take j).map DataTable.nrows).sum
        = ((((mkContribs dts (cols.getD i [])).map Column.elems).take j).map
            List.length).sum := by
      rw [List.map_take, List.map_take, hLs]
    rw [hsum, ← hnj]
    rw [flatten_drop_take _ j hjL]
    rw [hLj]
    have hcv : contribution dts (cols.getD i []) j
        = Column.void (dts.getD j dtEmpty).nrows := by
      simp only [contribution]
      rw [if_pos hneg]
    rw [hcv]
    simp [Column.void]

/-- Witness for C3 at a concrete input: receiver `rT0` (one int32 column,
two rows), one source table `rT1`, column map `[[0], [-1]]`, grown to two
columns. -/
theorem c3_na_fill_witness :
    (rT0.wf ∧ (∀ t ∈ [rT1], t.wf) ∧ rT0.ncols ≤ 2
      ∧ (∀ i, i < 2 → ∀ j, j < [rT1].length →
          0 ≤ (([[0], [-1]].getD i []).getD j (-1)) →
          ((([[0], [-1]].getD i []).getD j (-1)).toNat
            < ([rT1].getD j dtEmpty).ncols))
      ∧ (DataTable.rbind rT0 [rT1] [[0], [-1]] 2).2.1 = true)
    ∧ ((∀ i, rT0.ncols ≤ i → i < 2 →
        ((DataTable.rbind rT0 [rT1] [[0], [-1]] 2).1.colElems i).take rT0.nrows
          = List.replicate rT0.nrows none)
      ∧ (∀ i, i < 2 → ∀ j, j < [rT1].length →
          (([[0], [-1]].getD i []).getD j (-1)) < 0 →
          (((DataTable.rbind rT0 [rT1] [[0], [-1]] 2).1.colElems i).drop
              (blockOffset rT0 [rT1] j)).take ([rT1].getD j dtEmpty).nrows
            = List.replicate ([rT1].getD j dtEmpty).nrows none)) :=
  ⟨⟨by decide, by decide, by decide, by decide, by decide⟩,
    c3_na_fill rT0 [rT1] [[0], [-1]] 2 (by decide) (by decide) (by decide)
      (by decide) (by decide)⟩

end DT
